import Mathlib

/-!
Verification development for the persistent binary search tree (PBST) and the
bounded growable string stack of this repository.

The PBST is embedded from `src/typescript/exercises.ts` (classes `Empty` and
`Node`), which agrees with the Haskell (`src/haskell/Exercises.hs`), OCaml
(`src/ocaml/exercises.ml`) and Swift variants on `size`, `contains`, `insert`
and `inorder`.  The rendering `BST.render` is embedded from
`Node.toString`/`Empty.toString` in the TypeScript file.  The Java variant's
deviating `insert` (it has no equality case) is embedded as `javaInsert`.

The C string stack is embedded from `src/c/string_stack.c` (`CStack`), and the
templated C++ stack from the `Stack` class of the same file (`CppStack`).

A separate heap-level embedding (`HNode`, `reify`, `insertRef`) models the
TypeScript object graph explicitly, so that structural sharing of subtrees
between tree versions is visible and the frame property of `insert` over the
original root is a real statement about shared state.
-/

/-- The PBST data model: `Empty` and `Node(value, left, right)`
(TypeScript `Empty<T>` / `Node<T>`, Haskell `data BST a`). -/
inductive BST (α : Type) where
  | empty : BST α
  | node (value : α) (left : BST α) (right : BST α) : BST α
deriving DecidableEq, Repr

/-- `size`: 0 for Empty, `1 + left.size() + right.size()` for a Node
(TypeScript `Empty.size`/`Node.size`, identical in every variant). -/
def BST.size : BST α → Nat
  | .empty => 0
  | .node _ l r => 1 + l.size + r.size

/-- `inorder`: left values, then the node value, then right values
(TypeScript `Node._inorder`, Haskell `inorder`, OCaml `inorder`). -/
def BST.inorder : BST α → List α
  | .empty => []
  | .node v l r => l.inorder ++ v :: r.inorder

/-- `insert`: on Empty a fresh single node; on a Node, descend left when
`value < this.value`, right when `value > this.value`, and return the tree
itself on equality (TypeScript `Node.insert`; OCaml and Swift identical;
Haskell rebuilds the node with unchanged parts, the same value). -/
def BST.insert [LinearOrder α] : BST α → α → BST α
  | .empty, v => .node v .empty .empty
  | .node w l r, v =>
    if v < w then .node w (l.insert v) r
    else if w < v then .node w l (r.insert v)
    else .node w l r

/-- `contains`: false at Empty; at a Node true on equality, else descend
left when `value < this.value`, otherwise right (TypeScript `Node.contains`). -/
def BST.contains [LinearOrder α] : BST α → α → Bool
  | .empty, _ => false
  | .node w l r, v =>
    if v = w then true
    else if v < w then l.contains v
    else r.contains v

/-- `toString` of the TypeScript BST over strings: Empty renders as `"()"`;
a Node renders as `"(" + leftStr + value + rightStr + ")"` where an Empty
child contributes the empty string (`Node.toString` / `Empty.toString`). -/
def BST.render : BST String → String
  | .empty => "()"
  | .node v l r =>
    "(" ++ (match l with | .empty => "" | _ => l.render) ++ v ++
      (match r with | .empty => "" | _ => r.render) ++ ")"

/-- `insert` of the Java variant (`src/unnamed/part_000`, class `Node`): it
compares with `compareTo` and only distinguishes `< 0` from the rest, so an
equal value is sent into the right subtree instead of being dropped. -/
def javaInsert : BST String → String → BST String
  | .empty, v => .node v .empty .empty
  | .node w l r, v =>
    if v < w then .node w (javaInsert l v) r
    else .node w l (javaInsert r v)

/-- Building a tree by inserting a list of values, left to right, into the
empty tree. -/
def buildBST [LinearOrder α] (vs : List α) : BST α :=
  vs.foldl BST.insert .empty

/-- All values stored in a tree satisfy `p`. -/
def ForallBST (p : α → Prop) : BST α → Prop
  | .empty => True
  | .node v l r => ForallBST p l ∧ p v ∧ ForallBST p r

/-- The BST ordering invariant of the spec: below every `Node(v, L, R)`,
every value of `L` is strictly less than `v` and every value of `R` is
strictly greater. -/
def BSTInv [LT α] : BST α → Prop
  | .empty => True
  | .node v l r => ForallBST (· < v) l ∧ ForallBST (v < ·) r ∧ BSTInv l ∧ BSTInv r

instance ForallBST.dec (p : α → Prop) [DecidablePred p] :
    ∀ t : BST α, Decidable (ForallBST p t)
  | .empty => .isTrue trivial
  | .node v l r =>
    have := ForallBST.dec p l
    have := ForallBST.dec p r
    decidable_of_iff (ForallBST p l ∧ p v ∧ ForallBST p r) Iff.rfl

instance BSTInv.dec [LinearOrder α] : ∀ t : BST α, Decidable (BSTInv t)
  | .empty => .isTrue trivial
  | .node v l r =>
    have := BSTInv.dec (α := α) l
    have := BSTInv.dec (α := α) r
    decidable_of_iff
      (ForallBST (· < v) l ∧ ForallBST (v < ·) r ∧ BSTInv l ∧ BSTInv r) Iff.rfl

/-- A reference held in a `left`/`right` field of the TypeScript object graph:
either an `Empty` object (stateless) or the address of a `Node` object. -/
inductive Ref where
  | empty : Ref
  | addr (i : Nat) : Ref
deriving DecidableEq, Repr

/-- A heap-allocated TypeScript `Node` object: its `value`, `left` and `right`
fields, with subtrees held by reference. -/
structure HNode (α : Type) where
  value : α
  left : Ref
  right : Ref
deriving DecidableEq, Repr

/-- Read the object graph rooted at `r` back as an inductive tree; `fuel`
bounds the recursion depth (`none` for a dangling address or exhausted fuel —
actual TypeScript object graphs are finite and acyclic).  The heap is a list
of `Node` objects addressed by position; `new Node(...)` appends. -/
def reify : Nat → List (HNode α) → Ref → Option (BST α)
  | _, _, .empty => some .empty
  | 0, _, .addr _ => none
  | fuel + 1, h, .addr i =>
    match h[i]? with
    | none => none
    | some nd =>
      match reify fuel h nd.left, reify fuel h nd.right with
      | some l, some r => some (.node nd.value l r)
      | _, _ => none

/-- `Node.insert`/`Empty.insert` of the TypeScript code at the heap level:
every `new Node(...)` allocates (appends) a node and returns its address, the
untouched child is shared by address, and the `value === this.value` path
returns `this` without allocating.  `fuel` bounds the descent. -/
def insertRef [LinearOrder α] :
    Nat → List (HNode α) → Ref → α → Option (List (HNode α) × Ref)
  | _, h, .empty, v => some (h ++ [⟨v, .empty, .empty⟩], .addr h.length)
  | 0, _, .addr _, _ => none
  | fuel + 1, h, .addr i, v =>
    match h[i]? with
    | none => none
    | some nd =>
      if v < nd.value then
        match insertRef fuel h nd.left v with
        | none => none
        | some (h', l') => some (h' ++ [⟨nd.value, l', nd.right⟩], .addr h'.length)
      else if nd.value < v then
        match insertRef fuel h nd.right v with
        | none => none
        | some (h', r') => some (h' ++ [⟨nd.value, nd.left, r'⟩], .addr h'.length)
      else some (h, .addr i)

/-- `MAX_CAPACITY` of `string_stack.h`/`string_stack.c` (32768 by default,
quoted by the spec and by the C++ section of the same file). -/
def MAX_CAPACITY : Nat := 32768

/-- `INITIAL_CAPACITY` of `string_stack.c` (16). -/
def INITIAL_CAPACITY : Nat := 16

/-- The `response_code` values of the C stack interface. -/
inductive response_code where
  | success : response_code
  | stack_full : response_code
  | stack_empty : response_code
  | element_too_large : response_code
  | out_of_memory : response_code
deriving DecidableEq, Repr

/-- The C stack state (`struct _Stack`): `elements` holds the stored strings
below `top` in order (so `top` is `elements.length`; slots between `top` and
`capacity` are uninitialized in the C code and are never read on any defined
path), and `capacity` is the current buffer capacity.  Allocation is modelled
as always succeeding. -/
structure CStack where
  elements : List String
  capacity : Nat
deriving DecidableEq, Repr

/-- `create()`: empty stack with `INITIAL_CAPACITY` slots. -/
def CStack.create : CStack := ⟨[], INITIAL_CAPACITY⟩

/-- `size`: returns `top`. -/
def CStack.size (s : CStack) : Nat := s.elements.length

/-- `is_empty`: `top == 0`. -/
def CStack.is_empty (s : CStack) : Bool := s.elements.length == 0

/-- `is_full`: `top == MAX_CAPACITY`. -/
def CStack.is_full (s : CStack) : Bool := s.elements.length == MAX_CAPACITY

/-- `push` of `string_stack.c`, modelled faithfully to its control flow: the
full check first; then ONLY IF `top == capacity` does the code grow the
buffer (doubling, clamped to `MAX_CAPACITY`), store a copy of the item and
return `success` — the store and the `return success` statement sit inside
that `if` block.  When `top < capacity` control falls off the end of the
function with no store and no defined return value, modelled as `none`.
The item's length is never inspected. -/
def CStack.push (s : CStack) (item : String) : Option (response_code × CStack) :=
  if s.is_full then some (.stack_full, s)
  else if s.elements.length == s.capacity then
    let grown := s.capacity * 2
    let new_capacity := if grown > MAX_CAPACITY then MAX_CAPACITY else grown
    some (.success, ⟨s.elements ++ [item], new_capacity⟩)
  else none

/-- `pop` of `string_stack.c`: `stack_empty` on an empty stack; otherwise the
element at `--top` is handed out, and the buffer is reallocated to
`capacity / 2` floored at 1 on every pop (realloc modelled as succeeding). -/
def CStack.pop (s : CStack) : (response_code × Option String) × CStack :=
  if s.is_empty then ((.stack_empty, none), s)
  else
    let halved := s.capacity / 2
    let new_capacity := if halved < 1 then 1 else halved
    ((.success, s.elements.getLast?), ⟨s.elements.dropLast, new_capacity⟩)

/-- The states of the C stack reachable from `create()` by any sequence of
`push`/`pop` calls (a `none` result of `push` is the undefined fall-through,
which executes no state change, so it produces no new state). -/
inductive CReach : CStack → Prop
  | create : CReach CStack.create
  | push (s : CStack) (item : String) (rc : response_code) (s' : CStack) :
      CReach s → CStack.push s item = some (rc, s') → CReach s'
  | pop (s : CStack) (res : response_code × Option String) (s' : CStack) :
      CReach s → CStack.pop s = (res, s') → CReach s'

/-- The stack invariant claimed by the spec: `0 <= top <= capacity <=
MAX_CAPACITY` (the lower bound is inherent in the `Nat` model). -/
def StackInv (s : CStack) : Prop :=
  s.elements.length ≤ s.capacity ∧ s.capacity ≤ MAX_CAPACITY

instance : ∀ s : CStack, Decidable (StackInv s) := fun s =>
  decidable_of_iff (s.elements.length ≤ s.capacity ∧ s.capacity ≤ MAX_CAPACITY)
    Iff.rfl

/-- The C++ `Stack<T>` state of the same file, at `T = string`: the stored
elements below `top` in order, plus the current `capacity`. -/
structure CppStack where
  elements : List String
  capacity : Nat
deriving DecidableEq, Repr

/-- `Stack()` constructor: empty, `INITIAL_CAPACITY` slots. -/
def CppStack.create : CppStack := ⟨[], INITIAL_CAPACITY⟩

/-- C++ `is_full`: `top == capacity` (the current buffer capacity, unlike the
C version). -/
def CppStack.is_full (s : CppStack) : Bool := s.elements.length == s.capacity

/-- C++ `reallocate(new_capacity)`: clamps to
`max(INITIAL_CAPACITY, min(new_capacity, MAX_CAPACITY))` and copies the live
elements. -/
def CppStack.reallocate (s : CppStack) (new_capacity : Nat) : CppStack :=
  ⟨s.elements, max INITIAL_CAPACITY (min new_capacity MAX_CAPACITY)⟩

/-- C++ `push`: throws (`none`) at `top == MAX_CAPACITY`; grows by doubling
when `top == capacity`; then stores and increments `top`. -/
def CppStack.push (s : CppStack) (item : String) : Option CppStack :=
  if s.elements.length == MAX_CAPACITY then none
  else
    let s' := if s.elements.length == s.capacity
      then s.reallocate (2 * s.capacity) else s
    some ⟨s'.elements ++ [item], s'.capacity⟩

/-- C++ `pop`: throws (`none`) on an empty stack; otherwise removes the top
element and shrinks via `reallocate(max(capacity / 2, INITIAL_CAPACITY))`
only when `top <= capacity / 4 && capacity / 2 >= INITIAL_CAPACITY` —
a load-factor threshold, unlike the C version. -/
def CppStack.pop (s : CppStack) : Option (String × CppStack) :=
  match s.elements.getLast? with
  | none => none
  | some popped =>
    let rest := s.elements.dropLast
    let s' : CppStack :=
      if rest.length ≤ s.capacity / 4 ∧ INITIAL_CAPACITY ≤ s.capacity / 2
      then CppStack.reallocate ⟨rest, s.capacity⟩ (max (s.capacity / 2) INITIAL_CAPACITY)
      else ⟨rest, s.capacity⟩
    some (popped, s')

theorem BST.mem_inorder_insert [LinearOrder α] (t : BST α) (v x : α) :
    x ∈ (t.insert v).inorder ↔ x = v ∨ x ∈ t.inorder := by
  induction t with
  | empty => simp [BST.insert, BST.inorder]
  | node w l r ihl ihr =>
    rcases lt_trichotomy v w with h | h | h
    · simp only [BST.insert, if_pos h, BST.inorder, List.mem_append, List.mem_cons, ihl]
      tauto
    · subst h
      simp only [BST.insert, lt_self_iff_false, if_false, BST.inorder,
        List.mem_append, List.mem_cons]
      tauto
    · simp only [BST.insert, if_neg (asymm h), if_pos h, BST.inorder,
        List.mem_append, List.mem_cons, ihr]
      tauto

theorem forallBST_iff (p : α → Prop) (t : BST α) :
    ForallBST p t ↔ ∀ x ∈ t.inorder, p x := by
  induction t with
  | empty => simp [ForallBST, BST.inorder]
  | node v l r ihl ihr =>
    simp only [ForallBST, BST.inorder, ihl, ihr, List.forall_mem_append,
      List.forall_mem_cons]

theorem BSTInv.insert_preserved [LinearOrder α] {t : BST α} (v : α) (h : BSTInv t) :
    BSTInv (t.insert v) := by
  induction t with
  | empty => exact ⟨trivial, trivial, trivial, trivial⟩
  | node w l r ihl ihr =>
    obtain ⟨hfl, hfr, hil, hir⟩ := h
    rcases lt_trichotomy v w with hvw | hvw | hvw
    · simp only [BST.insert, if_pos hvw]
      refine ⟨?_, hfr, ihl hil, hir⟩
      rw [forallBST_iff] at hfl ⊢
      intro x hx
      rcases (BST.mem_inorder_insert l v x).1 hx with rfl | hx'
      · exact hvw
      · exact hfl x hx'
    · subst hvw
      simp only [BST.insert, lt_self_iff_false, if_false]
      exact ⟨hfl, hfr, hil, hir⟩
    · simp only [BST.insert, if_neg (asymm hvw), if_pos hvw]
      refine ⟨hfl, ?_, hil, ihr hir⟩
      rw [forallBST_iff] at hfr ⊢
      intro x hx
      rcases (BST.mem_inorder_insert r v x).1 hx with rfl | hx'
      · exact hvw
      · exact hfr x hx'

theorem BSTInv.inorder_pairwise [LinearOrder α] {t : BST α} (h : BSTInv t) :
    t.inorder.Pairwise (· < ·) := by
  induction t with
  | empty => simp [BST.inorder]
  | node w l r ihl ihr =>
    obtain ⟨hfl, hfr, hil, hir⟩ := h
    rw [forallBST_iff] at hfl hfr
    simp only [BST.inorder]
    rw [List.pairwise_append]
    refine ⟨ihl hil, ?_, ?_⟩
    · rw [List.pairwise_cons]
      exact ⟨fun b hb => hfr b hb, ihr hir⟩
    · intro a ha b hb
      rcases List.mem_cons.mp hb with rfl | hb'
      · exact hfl a ha
      · exact lt_trans (hfl a ha) (hfr b hb')

theorem BST.size_eq_length_inorder (t : BST α) : t.size = t.inorder.length := by
  induction t with
  | empty => rfl
  | node v l r ihl ihr =>
    simp only [BST.size, BST.inorder, List.length_append, List.length_cons, ihl, ihr]
    omega

theorem BST.contains_iff_mem [LinearOrder α] {t : BST α} (hinv : BSTInv t) (v : α) :
    t.contains v = true ↔ v ∈ t.inorder := by
  induction t with
  | empty => simp [BST.contains, BST.inorder]
  | node w l r ihl ihr =>
    obtain ⟨hfl, hfr, hil, hir⟩ := hinv
    rw [forallBST_iff] at hfl hfr
    by_cases hvw : v = w
    · subst hvw
      simp [BST.contains, BST.inorder]
    · by_cases hlt : v < w
      · simp only [BST.contains, if_neg hvw, if_pos hlt, BST.inorder,
          List.mem_append, List.mem_cons, ihl hil]
        constructor
        · exact fun hm => Or.inl hm
        · rintro (hm | rfl | hm)
          · exact hm
          · exact absurd rfl hvw
          · exact absurd hlt (asymm (hfr v hm))
      · have hgt : w < v := lt_of_le_of_ne (not_lt.mp hlt) (Ne.symm hvw)
        simp only [BST.contains, if_neg hvw, if_neg hlt, BST.inorder,
          List.mem_append, List.mem_cons, ihr hir]
        constructor
        · exact fun hm => Or.inr (Or.inr hm)
        · rintro (hm | rfl | hm)
          · exact absurd (hfl v hm) (asymm hgt)
          · exact absurd rfl hvw
          · exact hm

theorem BST.insert_eq_self_of_contains [LinearOrder α] {t : BST α} {v : α}
    (h : t.contains v = true) : t.insert v = t := by
  induction t with
  | empty => simp [BST.contains] at h
  | node w l r ihl ihr =>
    by_cases hvw : v = w
    · subst hvw
      simp [BST.insert, lt_self_iff_false]
    · by_cases hlt : v < w
      · have h' : l.contains v = true := by
          simpa [BST.contains, if_neg hvw, if_pos hlt] using h
        simp [BST.insert, if_pos hlt, ihl h']
      · have hgt : w < v := lt_of_le_of_ne (not_lt.mp hlt) (Ne.symm hvw)
        have h' : r.contains v = true := by
          simpa [BST.contains, if_neg hvw, if_neg hlt] using h
        simp [BST.insert, if_neg hlt, if_pos hgt, ihr h']

theorem BST.contains_insert_self [LinearOrder α] (t : BST α) (v : α) :
    (t.insert v).contains v = true := by
  induction t with
  | empty => simp [BST.insert, BST.contains]
  | node w l r ihl ihr =>
    rcases lt_trichotomy v w with h | h | h
    · simp only [BST.insert, if_pos h, BST.contains, if_neg (ne_of_lt h), if_pos h]
      exact ihl
    · subst h
      simp [BST.insert, lt_self_iff_false, BST.contains]
    · simp only [BST.insert, if_neg (asymm h), if_pos h, BST.contains,
        if_neg (ne_of_gt h), if_neg (asymm h)]
      exact ihr

theorem BST.size_insert_of_not_contains [LinearOrder α] {t : BST α} {v : α}
    (h : t.contains v = false) : (t.insert v).size = t.size + 1 := by
  induction t with
  | empty => rfl
  | node w l r ihl ihr =>
    by_cases hvw : v = w
    · subst hvw
      simp [BST.contains] at h
    · by_cases hlt : v < w
      · have h' : l.contains v = false := by
          simpa [BST.contains, if_neg hvw, if_pos hlt] using h
        simp only [BST.insert, if_pos hlt, BST.size, ihl h']
        omega
      · have hgt : w < v := lt_of_le_of_ne (not_lt.mp hlt) (Ne.symm hvw)
        have h' : r.contains v = false := by
          simpa [BST.contains, if_neg hvw, if_neg hlt] using h
        simp only [BST.insert, if_neg hlt, if_pos hgt, BST.size, ihr h']
        omega

theorem foldl_insert_inv [LinearOrder α] (vs : List α) (t : BST α) (h : BSTInv t) :
    BSTInv (vs.foldl BST.insert t) := by
  induction vs generalizing t with
  | nil => exact h
  | cons v vs ih => exact ih _ (BSTInv.insert_preserved v h)

theorem mem_foldl_insert [LinearOrder α] (vs : List α) (t : BST α) (x : α) :
    x ∈ (vs.foldl BST.insert t).inorder ↔ x ∈ vs ∨ x ∈ t.inorder := by
  induction vs generalizing t with
  | nil => simp
  | cons v vs ih =>
    simp only [List.foldl_cons, ih, BST.mem_inorder_insert, List.mem_cons]
    tauto

theorem size_foldl_insert [LinearOrder α] (vs : List α) (t : BST α)
    (hnd : vs.Nodup) (hinv : BSTInv t) (hfresh : ∀ v ∈ vs, v ∉ t.inorder) :
    (vs.foldl BST.insert t).size = t.size + vs.length := by
  induction vs generalizing t with
  | nil => simp
  | cons v vs ih =>
    have hc : t.contains v = false := by
      have : ¬ t.contains v = true := fun hh =>
        hfresh v (List.mem_cons_self v vs) ((BST.contains_iff_mem hinv v).1 hh)
      simpa using this
    rw [List.foldl_cons,
      ih (t.insert v) hnd.of_cons (BSTInv.insert_preserved v hinv) ?_,
      BST.size_insert_of_not_contains hc]
    · simp only [List.length_cons]
      omega
    · intro u hu hmem
      rcases (BST.mem_inorder_insert t v u).1 hmem with rfl | hmem'
      · exact (List.nodup_cons.mp hnd).1 hu
      · exact hfresh u (List.mem_cons_of_mem _ hu) hmem'

theorem insertRef_append [LinearOrder α] :
    ∀ (fuel : Nat) (h : List (HNode α)) (r : Ref) (v : α)
      (h2 : List (HNode α)) (r2 : Ref),
      insertRef fuel h r v = some (h2, r2) → ∃ ext, h2 = h ++ ext := by
  intro fuel
  induction fuel with
  | zero =>
    intro h r v h2 r2 heq
    cases r with
    | empty =>
      simp only [insertRef, Option.some.injEq, Prod.mk.injEq] at heq
      obtain ⟨rfl, rfl⟩ := heq
      exact ⟨[⟨v, .empty, .empty⟩], rfl⟩
    | addr i => simp [insertRef] at heq
  | succ fuel ih =>
    intro h r v h2 r2 heq
    cases r with
    | empty =>
      simp only [insertRef, Option.some.injEq, Prod.mk.injEq] at heq
      obtain ⟨rfl, rfl⟩ := heq
      exact ⟨[⟨v, .empty, .empty⟩], rfl⟩
    | addr i =>
      simp only [insertRef] at heq
      cases hnd : h[i]? with
      | none => simp [hnd] at heq
      | some nd =>
        simp only [hnd] at heq
        by_cases hv : v < nd.value
        · rw [if_pos hv] at heq
          cases hrec : insertRef fuel h nd.left v with
          | none => simp [hrec] at heq
          | some p =>
            obtain ⟨hL, lL⟩ := p
            simp only [hrec, Option.some.injEq, Prod.mk.injEq] at heq
            obtain ⟨rfl, rfl⟩ := heq
            obtain ⟨ext, hext⟩ := ih h nd.left v hL lL hrec
            exact ⟨ext ++ [⟨nd.value, lL, nd.right⟩], by rw [hext, List.append_assoc]⟩
        · by_cases hv2 : nd.value < v
          · rw [if_neg hv, if_pos hv2] at heq
            cases hrec : insertRef fuel h nd.right v with
            | none => simp [hrec] at heq
            | some p =>
              obtain ⟨hR, rR⟩ := p
              simp only [hrec, Option.some.injEq, Prod.mk.injEq] at heq
              obtain ⟨rfl, rfl⟩ := heq
              obtain ⟨ext, hext⟩ := ih h nd.right v hR rR hrec
              exact ⟨ext ++ [⟨nd.value, nd.left, rR⟩], by rw [hext, List.append_assoc]⟩
          · rw [if_neg hv, if_neg hv2] at heq
            simp only [Option.some.injEq, Prod.mk.injEq] at heq
            obtain ⟨rfl, rfl⟩ := heq
            exact ⟨[], (List.append_nil h).symm⟩

theorem reify_append (ext : List (HNode α)) :
    ∀ (fuel : Nat) (h : List (HNode α)) (r : Ref) (t : BST α),
      reify fuel h r = some t → reify fuel (h ++ ext) r = some t := by
  intro fuel
  induction fuel with
  | zero =>
    intro h r t heq
    cases r with
    | empty => exact heq
    | addr i => simp [reify] at heq
  | succ fuel ih =>
    intro h r t heq
    cases r with
    | empty => exact heq
    | addr i =>
      simp only [reify] at heq ⊢
      cases hnd : h[i]? with
      | none => simp [hnd] at heq
      | some nd =>
        have hi : i < h.length := by
          by_contra hge
          rw [List.getElem?_eq_none (Nat.le_of_not_lt hge)] at hnd
          exact Option.noConfusion hnd
        rw [List.getElem?_append, if_pos hi, hnd]
        dsimp only
        simp only [hnd] at heq
        cases hl : reify fuel h nd.left with
        | none => simp [hl] at heq
        | some tl =>
          cases hr : reify fuel h nd.right with
          | none => simp [hl, hr] at heq
          | some tr =>
            simp only [hl, hr] at heq
            rw [ih h nd.left tl hl, ih h nd.right tr hr]
            exact heq

theorem creach_eq_create (s : CStack) (h : CReach s) : s = CStack.create := by
  induction h with
  | create => rfl
  | push s item rc s' hr heq ih =>
    subst ih
    simp [CStack.push, CStack.create, CStack.is_full, INITIAL_CAPACITY,
      MAX_CAPACITY] at heq
  | pop s res s' hr heq ih =>
    subst ih
    simp only [CStack.pop, CStack.create, CStack.is_empty, List.length_nil,
      Nat.zero_eq, beq_self_eq_true, if_true, Prod.mk.injEq] at heq
    exact heq.2.symm

/-- C1: inserting a value absent from a BST-invariant tree `T` leaves the
original root `T` unchanged: in the extended heap produced by `insert`, the
old root still reads back as the same tree, so its `size`, `contains` for
every value, and `inorder` sequence are identical to before the insert. -/
theorem claim_C1_insert_preserves_original [LinearOrder α]
    (h : List (HNode α)) (r : Ref) (v : α) (n m : Nat) (t : BST α)
    (hre : reify n h r = some t) (hinv : BSTInv t) (habs : t.contains v = false)
    (h2 : List (HNode α)) (r2 : Ref) (hins : insertRef m h r v = some (h2, r2)) :
    ∃ t2, reify n h2 r = some t2 ∧ t2.size = t.size ∧
      (∀ x, t2.contains x = t.contains x) ∧ t2.inorder = t.inorder := by
  obtain ⟨ext, rfl⟩ := insertRef_append m h r v h2 r2 hins
  exact ⟨t, reify_append ext n h r t hre, rfl, fun x => rfl, rfl⟩

theorem claim_C1_witness :
    reify 1 ([⟨5, .empty, .empty⟩] : List (HNode Nat)) (.addr 0) =
      some (BST.node 5 .empty .empty) ∧
    BSTInv (BST.node (5 : Nat) .empty .empty) ∧
    (BST.node (5 : Nat) .empty .empty).contains 3 = false ∧
    insertRef 1 ([⟨5, .empty, .empty⟩] : List (HNode Nat)) (.addr 0) 3 =
      some ([⟨5, .empty, .empty⟩, ⟨3, .empty, .empty⟩, ⟨5, .addr 1, .empty⟩],
        .addr 2) ∧
    ∃ t2,
      reify 1
        ([⟨5, .empty, .empty⟩, ⟨3, .empty, .empty⟩, ⟨5, .addr 1, .empty⟩] :
          List (HNode Nat)) (.addr 0) = some t2 ∧
      t2.size = (BST.node (5 : Nat) .empty .empty).size ∧
      (∀ x, t2.contains x = (BST.node (5 : Nat) .empty .empty).contains x) ∧
      t2.inorder = (BST.node (5 : Nat) .empty .empty).inorder :=
  ⟨rfl, by decide, by decide, rfl,
    claim_C1_insert_preserves_original [⟨5, .empty, .empty⟩] (.addr 0) 3 1 1
      (BST.node 5 .empty .empty) rfl (by decide) (by decide)
      [⟨5, .empty, .empty⟩, ⟨3, .empty, .empty⟩, ⟨5, .addr 1, .empty⟩]
      (.addr 2) rfl⟩

/-- C2: inserting any list of pairwise-distinct values into the empty tree
yields a tree whose `size` is the number of values and whose `inorder`
traversal is strictly ascending and is exactly those values. -/
theorem claim_C2_insert_distinct_values [LinearOrder α] (vs : List α)
    (hnd : vs.Nodup) :
    (buildBST vs).size = vs.length ∧
    (buildBST vs).inorder.Pairwise (· < ·) ∧
    (buildBST vs).inorder.Perm vs := by
  have hinv : BSTInv (buildBST vs) := foldl_insert_inv vs .empty trivial
  have hpw : (buildBST vs).inorder.Pairwise (· < ·) := BSTInv.inorder_pairwise hinv
  refine ⟨?_, hpw, ?_⟩
  · have hs := size_foldl_insert vs .empty hnd trivial (by simp [BST.inorder])
    simpa [buildBST, BST.size] using hs
  · refine (List.perm_ext_iff_of_nodup (hpw.imp fun hab => ne_of_lt hab) hnd).mpr ?_
    intro a
    rw [buildBST, mem_foldl_insert]
    simp [BST.inorder]

theorem claim_C2_witness :
    ([3, 1, 2] : List Nat).Nodup ∧
    ((buildBST ([3, 1, 2] : List Nat)).size = ([3, 1, 2] : List Nat).length ∧
      (buildBST ([3, 1, 2] : List Nat)).inorder.Pairwise (· < ·) ∧
      (buildBST ([3, 1, 2] : List Nat)).inorder.Perm [3, 1, 2]) :=
  ⟨by decide, claim_C2_insert_distinct_values [3, 1, 2] (by decide)⟩

/-- C3 (code evaluation at the failing input): the Java variant's `insert`
(`javaInsert`, from `src/unnamed/part_000`) sends an equal value into the
right subtree, so inserting `"m"` into the single-node tree `("m")` adds a
duplicate node and grows the size from 1 to 2 — against the spec's
duplicate-insert-is-a-no-op semantics (which the TypeScript, Haskell, OCaml
and Swift variants implement, see `BST.insert_eq_self_of_contains`). -/
theorem claim_C3_java_duplicate :
    javaInsert (BST.node "m" .empty .empty) "m" =
      BST.node "m" .empty (BST.node "m" .empty .empty) ∧
    (javaInsert (BST.node "m" .empty .empty) "m").size = 2 ∧
    (BST.node "m" (BST.empty (α := String)) .empty).size = 1 := by
  have hmm : ¬ ("m" : String) < "m" := lt_irrefl _
  have h1 : javaInsert (BST.node "m" .empty .empty) "m" =
      BST.node "m" .empty (BST.node "m" .empty .empty) := by
    simp only [javaInsert, if_neg hmm]
  exact ⟨h1, by rw [h1]; rfl, rfl⟩

/-- C4: every stack state reachable from `create()` by `push`/`pop` calls
satisfies `0 <= top <= capacity <= MAX_CAPACITY` (the lower bound is inherent
in the `Nat` model). -/
theorem claim_C4_stack_invariant (s : CStack) (hr : CReach s) : StackInv s := by
  rw [creach_eq_create s hr]
  decide

theorem claim_C4_witness : CReach CStack.create ∧ StackInv CStack.create :=
  ⟨CReach.create, claim_C4_stack_invariant CStack.create CReach.create⟩

/-- C5 (code evaluation at the failing input): on a freshly created stack
(`top = 0 < capacity = 16 < MAX_CAPACITY`) `push` stores nothing and returns
no defined response (the store and `return success` sit inside the
`top == capacity` grow branch only), while on the `top == capacity` path the
grow-store-increment behavior is as described. -/
theorem claim_C5_push_falls_through :
    CStack.push CStack.create "x" = none ∧
    CStack.push ⟨List.replicate 16 "x", 16⟩ "y" =
      some (.success, ⟨List.replicate 16 "x" ++ ["y"], 32⟩) :=
  ⟨rfl, rfl⟩

/-- C6 (amended): in the C implementation, `pop` fails with `stack_empty` on
an empty stack leaving it unchanged, and otherwise returns the top element,
decrements the length, and sets the capacity to `max(1, capacity / 2)` on
every pop.  (The C++ implementation of the same file shrinks only at a
load-factor threshold; see the counterexample.) -/
theorem claim_C6_pop_behavior :
    (∀ s : CStack, s.elements = [] → CStack.pop s = ((.stack_empty, none), s)) ∧
    (∀ s : CStack, s.elements ≠ [] →
      CStack.pop s = ((.success, s.elements.getLast?),
        ⟨s.elements.dropLast, max 1 (s.capacity / 2)⟩)) := by
  constructor
  · intro s hs
    simp [CStack.pop, CStack.is_empty, hs]
  · intro s hs
    have hne : (s.elements.length == 0) = false := by
      simp [List.length_eq_zero, hs]
    have hcap : (if s.capacity / 2 < 1 then 1 else s.capacity / 2) =
        max 1 (s.capacity / 2) := by
      rcases Nat.lt_or_ge (s.capacity / 2) 1 with hh | hh
      · rw [if_pos hh]; omega
      · rw [if_neg (Nat.not_lt.mpr hh)]; omega
    simp only [CStack.pop, CStack.is_empty, hne, Bool.false_eq_true, if_false, hcap]

theorem claim_C6_witness :
    ((⟨["a", "b"], 16⟩ : CStack).elements ≠ []) ∧
    CStack.pop ⟨["a", "b"], 16⟩ =
      ((.success, (⟨["a", "b"], 16⟩ : CStack).elements.getLast?),
        ⟨(⟨["a", "b"], 16⟩ : CStack).elements.dropLast,
          max 1 ((⟨["a", "b"], 16⟩ : CStack).capacity / 2)⟩) :=
  ⟨by simp, claim_C6_pop_behavior.2 ⟨["a", "b"], 16⟩ (by simp)⟩

/-- C6 counterexample: the C++ `Stack::pop` of the same file does not shrink
to `max(1, capacity / 2)` on every pop: popping one of 32 elements at
capacity 32 keeps capacity 32 (31 > 32/4, so no reallocation), where the
claim requires capacity 16. -/
theorem claim_C6_counterexample :
    CppStack.pop ⟨List.replicate 32 "x", 32⟩ =
      some ("x", ⟨List.replicate 31 "x", 32⟩) ∧
    (32 : Nat) ≠ max 1 (32 / 2) :=
  ⟨rfl, by decide⟩

/-- C7 (amended direction of the code's actual behavior): the C `push` never
returns `element_too_large` for any stack and any item — the length check is
an unimplemented TODO in `string_stack.c`. -/
theorem claim_C7_no_element_too_large (s : CStack) (item : String)
    (rc : response_code) (s' : CStack)
    (heq : CStack.push s item = some (rc, s')) :
    rc ≠ response_code.element_too_large := by
  simp only [CStack.push] at heq
  split at heq
  · simp only [Option.some.injEq, Prod.mk.injEq] at heq
    obtain ⟨rfl, rfl⟩ := heq
    decide
  · split at heq
    · simp only [Option.some.injEq, Prod.mk.injEq] at heq
      obtain ⟨rfl, rfl⟩ := heq
      decide
    · exact Option.noConfusion heq

theorem claim_C7_witness :
    CStack.push ⟨List.replicate 16 "x", 16⟩ (String.mk (List.replicate 600 'a')) =
      some (.success,
        ⟨List.replicate 16 "x" ++ [String.mk (List.replicate 600 'a')], 32⟩) ∧
    response_code.success ≠ response_code.element_too_large :=
  ⟨rfl, claim_C7_no_element_too_large ⟨List.replicate 16 "x", 16⟩
    (String.mk (List.replicate 600 'a')) response_code.success
    ⟨List.replicate 16 "x" ++ [String.mk (List.replicate 600 'a')], 32⟩ rfl⟩

/-- C8: `Empty` renders as `"()"`; a `Node` renders as
`"(" + leftStr + value + rightStr + ")"` with an Empty child contributing the
empty string; the single-node tree `"m"` renders as `"(m)"`; and inserting
`"a"` then `"z"` into it renders as `"((a)m(z))"`. -/
theorem claim_C8_rendering :
    BST.render .empty = "()" ∧
    (∀ (v : String) (l r : BST String),
      (BST.node v l r).render =
        "(" ++ (if l = .empty then "" else l.render) ++ v ++
          (if r = .empty then "" else r.render) ++ ")") ∧
    (BST.node "m" .empty .empty).render = "(m)" ∧
    (((BST.node "m" .empty .empty).insert "a").insert "z").render = "((a)m(z))" := by
  refine ⟨rfl, ?_, rfl, ?_⟩
  · intro v l r
    cases l <;> cases r <;> simp [BST.render]
  · have ha : ("a" : String) < "m" := by rw [String.lt_iff_toList_lt]; decide
    have hz : ("m" : String) < "z" := by rw [String.lt_iff_toList_lt]; decide
    simp only [BST.insert, if_pos ha, if_neg (asymm hz), if_pos hz]
    rfl

/-- C9 (amended): the C `is_full` returns true exactly when the logical
length equals `MAX_CAPACITY` (32768); the C++ `is_full` of the same file
instead returns true when the length equals the current buffer capacity. -/
theorem claim_C9_is_full_semantics :
    (∀ s : CStack, (CStack.is_full s = true ↔ s.elements.length = MAX_CAPACITY)) ∧
    (∀ s : CppStack,
      (CppStack.is_full s = true ↔ s.elements.length = s.capacity)) ∧
    MAX_CAPACITY = 32768 := by
  refine ⟨fun s => ?_, fun s => ?_, rfl⟩
  · simp [CStack.is_full]
  · simp [CppStack.is_full]

/-- C9 counterexample: the C++ `Stack::is_full` answers true on a stack of 16
elements with buffer capacity 16 (reachable by 16 pushes), whose length is
not `MAX_CAPACITY` — so `is_full` is not "length == MAX_CAPACITY" for every
stack state of this file. -/
theorem claim_C9_counterexample :
    CppStack.is_full ⟨List.replicate 16 "x", 16⟩ = true ∧
    (List.replicate 16 "x").length ≠ MAX_CAPACITY :=
  ⟨rfl, by decide⟩

/-- C10: after `t.insert(v)` on a tree satisfying the ordering invariant, the
result contains `v`, and its size is `t.size` when `v` was already present
and `t.size + 1` otherwise. -/
theorem claim_C10_insert_membership_size [LinearOrder α] (t : BST α) (v : α)
    (hinv : BSTInv t) :
    (t.insert v).contains v = true ∧
    (t.insert v).size = (if t.contains v then t.size else t.size + 1) := by
  refine ⟨BST.contains_insert_self t v, ?_⟩
  cases hc : t.contains v
  · simp only [hc, Bool.false_eq_true, if_false]
    exact BST.size_insert_of_not_contains hc
  · rw [BST.insert_eq_self_of_contains hc]
    simp [hc]

theorem claim_C10_witness :
    BSTInv (BST.node (2 : Nat) (.node 1 .empty .empty) (.node 3 .empty .empty)) ∧
    (((BST.node (2 : Nat) (.node 1 .empty .empty) (.node 3 .empty .empty)).insert
        5).contains 5 = true ∧
      ((BST.node (2 : Nat) (.node 1 .empty .empty) (.node 3 .empty .empty)).insert
          5).size =
        (if (BST.node (2 : Nat) (.node 1 .empty .empty)
              (.node 3 .empty .empty)).contains 5
         then (BST.node (2 : Nat) (.node 1 .empty .empty)
              (.node 3 .empty .empty)).size
         else (BST.node (2 : Nat) (.node 1 .empty .empty)
              (.node 3 .empty .empty)).size + 1)) :=
  ⟨by decide, claim_C10_insert_membership_size _ 5 (by decide)⟩
